import Mathlib

/-!
Shallow embedding of the poker hand-evaluation and pot-resolution core of
the `card_dealer` crate (files `card_dealer.rs`, `poker_hand.rs`,
`player.rs`, `table.rs`, `game_controller.rs`), together with theorems
settling the specification claims about it.

Machine integers (`u32`) are modelled as `Nat` with an explicit `% 2 ^ 32`
at every write that can overflow, matching release-profile wrapping
arithmetic.  The `Deck` collaborator (random shuffling) is external to the
verified core and is not modelled; no claim depends on it.  Rust's
`HashMap<String, u32>` bet ledger is modelled as an association list in
insertion order; all theorems about eligibility sets are stated through
membership, never through the (unspecified) key order.
-/

namespace Poker

/-- The four suits, in the declaration order of `Suit` in `card_dealer.rs`. -/
inductive Suit where
  | Hearts | Diamonds | Clubs | Spades
deriving DecidableEq, Repr

/-- Discriminant of `Suit` (the Rust `as usize` value). -/
def Suit.val : Suit → Nat
  | .Hearts => 0
  | .Diamonds => 1
  | .Clubs => 2
  | .Spades => 3

/-- The thirteen ranks, Two .. Ace, in the declaration order of `Rank`. -/
inductive Rank where
  | Two | Three | Four | Five | Six | Seven | Eight | Nine | Ten
  | Jack | Queen | King | Ace
deriving DecidableEq, Repr

/-- Discriminant of `Rank`; the derived `Ord` on `Rank` compares these. -/
def Rank.val : Rank → Nat
  | .Two => 0
  | .Three => 1
  | .Four => 2
  | .Five => 3
  | .Six => 4
  | .Seven => 5
  | .Eight => 6
  | .Nine => 7
  | .Ten => 8
  | .Jack => 9
  | .Queen => 10
  | .King => 11
  | .Ace => 12

/-- `Card` from `card_dealer.rs`: a rank and a suit. -/
structure Card where
  rank : Rank
  suit : Suit
deriving DecidableEq, Repr

/-- The nine hand categories of `HandRank` in `poker_hand.rs`,
in declaration order (weakest first). -/
inductive HandRank where
  | HighCard | OnePair | TwoPair | ThreeOfAKind | Straight | Flush
  | FullHouse | FourOfAKind | StraightFlush
deriving DecidableEq, Repr

/-- Discriminant of `HandRank`; the derived `Ord` compares these. -/
def HandRank.val : HandRank → Nat
  | .HighCard => 0
  | .OnePair => 1
  | .TwoPair => 2
  | .ThreeOfAKind => 3
  | .Straight => 4
  | .Flush => 5
  | .FullHouse => 6
  | .FourOfAKind => 7
  | .StraightFlush => 8

/-- Integer comparison as in Rust's `Ord::cmp` on discriminants. -/
def cmpNat (a b : Nat) : Ordering :=
  if a < b then .lt else if a = b then .eq else .gt

/-- One insertion step of the descending-by-rank stable sort performed by
`sort_by(|a, b| b.rank.cmp(&a.rank))` in `poker_hand.rs`. -/
def insertDesc (c : Card) : List Card → List Card
  | [] => [c]
  | d :: ds => if d.rank.val ≤ c.rank.val then c :: d :: ds else d :: insertDesc c ds

/-- The descending-by-rank stable sort used on card vectors. -/
def sortDesc : List Card → List Card
  | [] => []
  | c :: cs => insertDesc c (sortDesc cs)

/-- `count_suits` from `poker_hand.rs`: occurrences of each of the 4 suits. -/
def count_suits (hand : List Card) : List Nat :=
  (List.range 4).map fun s => (hand.filter fun c => c.suit.val = s).length

/-- `count_ranks` from `poker_hand.rs`: occurrences of each of the 13 ranks. -/
def count_ranks (hand : List Card) : List Nat :=
  (List.range 13).map fun r => (hand.filter fun c => c.rank.val = r).length

/-- `check_flush` from `poker_hand.rs`. -/
def check_flush (suits : List Nat) : Bool :=
  suits.any fun count => count == 5

/-- The loop of `check_straight`, carrying the `consecutive` counter. -/
def straightLoop : List Nat → Nat → Bool
  | [], _ => false
  | count :: rest, consecutive =>
    if count > 0 then
      if consecutive + 1 == 5 then true else straightLoop rest (consecutive + 1)
    else straightLoop rest 0

/-- `check_straight` from `poker_hand.rs`: five consecutive occupied ranks,
scanning Two upward; Ace is high only, there is no wheel/wraparound. -/
def check_straight (ranks : List Nat) : Bool :=
  straightLoop ranks 0

/-- `evaluate_hand` from `poker_hand.rs`: the 9-way classification, in the
source's match-arm order. -/
def evaluate_hand (hand : List Card) : HandRank :=
  let suits := count_suits hand
  let ranks := count_ranks hand
  let is_flush := check_flush suits
  let is_straight := check_straight ranks
  if is_flush && is_straight then .StraightFlush
  else if ranks.contains 4 then .FourOfAKind
  else if ranks.contains 3 && ranks.contains 2 then .FullHouse
  else if is_flush then .Flush
  else if is_straight then .Straight
  else if ranks.contains 3 then .ThreeOfAKind
  else if (ranks.filter fun count => count == 2).length == 2 then .TwoPair
  else if ranks.contains 2 then .OnePair
  else .HighCard

/-- Modelled from the spec: the nine classification rules of §4.1 written
with their own independent guards, evaluated in the spec's precedence
order (flush-and-straight, four of a kind, full house, flush only,
straight only, exactly three with no accompanying pair, exactly two pair
ranks, exactly one pair rank, otherwise high card).  Used only to compare
against `evaluate_hand`. -/
def spec_classify (hand : List Card) : HandRank :=
  let ranks := count_ranks hand
  let is_flush := check_flush (count_suits hand)
  let is_straight := check_straight ranks
  let pair_ranks := (ranks.filter fun count => count == 2).length
  if is_flush && is_straight then .StraightFlush
  else if ranks.contains 4 then .FourOfAKind
  else if ranks.contains 3 && ranks.contains 2 then .FullHouse
  else if is_flush && !is_straight then .Flush
  else if !is_flush && is_straight then .Straight
  else if ranks.contains 3 && !ranks.contains 2 then .ThreeOfAKind
  else if pair_ranks == 2 then .TwoPair
  else if pair_ranks == 1 then .OnePair
  else .HighCard

/-- `Hand` from `poker_hand.rs`: a card vector plus its category. -/
structure Hand where
  cards : List Card
  rank : HandRank
deriving DecidableEq, Repr

/-- `Hand::new`: sort descending by rank, then classify. -/
def Hand.new (cards : List Card) : Hand :=
  let sorted := sortDesc cards
  { cards := sorted, rank := evaluate_hand sorted }

/-- The zip loop inside `Hand::compare_two_hands`: compare card ranks
position by position (stopping at the shorter list), `Equal` if no
position differs. -/
def zipCmp : List Card → List Card → Ordering
  | c1 :: t1, c2 :: t2 =>
    match cmpNat c1.rank.val c2.rank.val with
    | .eq => zipCmp t1 t2
    | o => o
  | _, _ => .eq

/-- `Hand::compare_two_hands`: category first, then the rank-by-rank
tie-break over the descending-sorted card vectors. Suits are never read. -/
def Hand.compare_two_hands (self other : Hand) : Ordering :=
  match cmpNat self.rank.val other.rank.val with
  | .eq => zipCmp (sortDesc self.cards) (sortDesc other.cards)
  | o => o

/-- `itertools::combinations(5)`-style enumeration of `n`-element
subsequences, first element fixed first (lexicographic by position). -/
def combinations : Nat → List α → List (List α)
  | 0, _ => [[]]
  | _ + 1, [] => []
  | n + 1, x :: xs => ((combinations n xs).map fun c => x :: c) ++ combinations (n + 1) xs

/-- Rust's `Iterator::max_by`: fold keeping the current maximum, the second
argument winning ties (so the last maximal element is returned). -/
def max_by (cmp : α → α → Ordering) : List α → Option α
  | [] => none
  | x :: xs => some (xs.foldl (fun acc y => if cmp acc y = .gt then acc else y) x)

/-- `find_best_hand` from `poker_hand.rs`: build a `Hand` from every 5-card
combination, take the maximum under `compare_two_hands`, defaulting to
`Hand::new(vec![])` when there is no combination (fewer than 5 cards). -/
def find_best_hand (cards : List Card) : Hand :=
  match max_by Hand.compare_two_hands
      ((combinations 5 cards).map fun comb => Hand.new (sortDesc comb)) with
  | some h => h
  | none => Hand.new []

/-- Proof-side counterpart of the `zipCmp` loop on rank values. -/
def cmpL : List Nat → List Nat → Ordering
  | a :: t1, b :: t2 =>
    match cmpNat a b with
    | .eq => cmpL t1 t2
    | o => o
  | _, _ => .eq

/-- Proof-side counterpart of `insertDesc` on rank values. -/
def insertN (n : Nat) : List Nat → List Nat
  | [] => [n]
  | m :: ms => if m ≤ n then n :: m :: ms else m :: insertN n ms

/-- Proof-side counterpart of `sortDesc` on rank values. -/
def sortN : List Nat → List Nat
  | [] => []
  | n :: ns => insertN n (sortN ns)

/-- The rank values of a card list, in order. -/
def rankVals (cs : List Card) : List Nat :=
  cs.map fun c => c.rank.val

/-- A card list sorted descending by rank value. -/
def DescSorted (l : List Card) : Prop :=
  l.Pairwise fun a b => b.rank.val ≤ a.rank.val

/-- `PlayerAction` from `player.rs`. -/
inductive PlayerAction where
  | Bet (amount : Nat)
  | Raise (amount : Nat)
  | Fold
  | Check
  | Call
  | SitOut
deriving DecidableEq, Repr

/-- The `Player` struct from `player.rs` (chip amounts are `u32`). -/
structure Player where
  player_id : String
  display_name : String
  hole_cards : List Card
  hand_strength : Option HandRank
  best_hand : Option Hand
  chip_stack : Nat
  table_position : Nat
  is_sitting_out : Bool
  is_in_play : Bool
  action_history : List PlayerAction
deriving DecidableEq, Repr

/-- `Player::new`. -/
def Player.new (player_id display_name : String) (table_position chip_stack : Nat) :
    Player where
  player_id := player_id
  display_name := display_name
  hole_cards := []
  hand_strength := none
  best_hand := none
  chip_stack := chip_stack
  table_position := table_position
  is_sitting_out := false
  is_in_play := true
  action_history := []

/-- `Player::evaluate_hand`: recompute `best_hand` from hole plus community
cards and mirror its category into `hand_strength`. -/
def Player.evaluate_hand (p : Player) (community_cards : List Card) : Player :=
  let combined_cards := p.hole_cards ++ community_cards
  let bh : Option Hand := some (find_best_hand combined_cards)
  { p with best_hand := bh, hand_strength := bh.map Hand.rank }

/-- `Player::record_action`. -/
def Player.record_action (p : Player) (action : PlayerAction) : Player :=
  { p with action_history := p.action_history ++ [action] }

/-- `Player::fold`: leave the hand; `best_hand`/`hand_strength` untouched. -/
def Player.fold (p : Player) : Player :=
  ({ p with is_in_play := false, hole_cards := [] }).record_action .Fold

/-- `Player::sit_out`: sit out; recorded as a fold for this hand. -/
def Player.sit_out (p : Player) : Player :=
  ({ p with is_sitting_out := true, is_in_play := false,
            hole_cards := [] }).record_action .Fold

/-- `Player::reset_for_new_hand`: clears hole cards, activity flag, the
`hand_strength` mirror and the action history.  Note that the source does
not clear `best_hand` here. -/
def Player.reset_for_new_hand (p : Player) : Player :=
  { p with hole_cards := [], is_in_play := !p.is_sitting_out,
           hand_strength := none, action_history := [] }

/-- `Pot` from `table.rs` (`total` is a `u32` chip count). -/
structure Pot where
  total : Nat
  eligible_players : List String
  winners : Option (List String)
deriving DecidableEq, Repr

/-- `Table` from `table.rs`.  `player_bets` models the
`HashMap<String, u32>` ledger as an association list in insertion order. -/
structure Table where
  community_cards : List Card
  pots : List Pot
  player_bets : List (String × Nat)
  min_bet : Nat
  max_bet : Nat
deriving DecidableEq, Repr

/-- `HashMap::get(player_id).copied().unwrap_or(0)` on the bet ledger. -/
def getBet (bets : List (String × Nat)) (player_id : String) : Nat :=
  match bets.find? fun e => e.1 == player_id with
  | some e => e.2
  | none => 0

/-- `*player_bets.entry(id).or_insert(0) += amount` with `u32` wrapping. -/
def addToBets (bets : List (String × Nat)) (player_id : String) (amount : Nat) :
    List (String × Nat) :=
  if bets.any fun e => e.1 == player_id then
    bets.map fun e => if e.1 == player_id then (e.1, (e.2 + amount) % 2 ^ 32) else e
  else
    bets ++ [(player_id, amount)]

/-- `u32` wrapping subtraction (for operands below `2 ^ 32`). -/
def usub (a b : Nat) : Nat :=
  (a + 2 ^ 32 - b) % 2 ^ 32

/-- `Table::new`. -/
def Table.new : Table where
  community_cards := []
  pots := []
  player_bets := []
  min_bet := 0
  max_bet := 0

/-- `Table::active_players`: the keys of the bet ledger. -/
def Table.active_players (t : Table) : List String :=
  t.player_bets.map Prod.fst

/-- The `for pot in &mut self.pots` loop of `Table::add_bet`: walk the pot
list carrying `remaining_amount`; a pot whose `eligible_players` contains
the bettor absorbs `min(remaining, max_bet - player_bets[id])`, computed
with `u32` wrapping.  Returns the updated pots and the final remainder. -/
def potsLoop (bets : List (String × Nat)) (max_bet : Nat) (player_id : String) :
    List Pot → Nat → List Pot × Nat
  | [], remaining => ([], remaining)
  | pot :: rest, remaining =>
    if remaining = 0 then (pot :: rest, remaining)
    else if pot.eligible_players.contains player_id = true then
      let contribution := min remaining (usub max_bet (getBet bets player_id))
      let updated := { pot with total := (pot.total + contribution) % 2 ^ 32 }
      let next := potsLoop bets max_bet player_id rest (remaining - contribution)
      (updated :: next.1, next.2)
    else
      let next := potsLoop bets max_bet player_id rest remaining
      (pot :: next.1, next.2)

/-- `Table::add_bet`: feed the bet through the open pots, open a side pot
from any excess (eligible set read from the ledger *before* this bet is
recorded), then record the bet in the ledger.  Always returns `Ok(())` in
the source, so the model just returns the new table. -/
def Table.add_bet (t : Table) (player_id : String) (amount : Nat) : Table :=
  let looped := potsLoop t.player_bets t.max_bet player_id t.pots amount
  let pots' :=
    if looped.2 > 0 then
      looped.1 ++ [{ total := looped.2, eligible_players := t.active_players,
                     winners := none }]
    else looped.1
  { t with pots := pots', player_bets := addToBets t.player_bets player_id amount }

/-- `Table::reset_for_new_round`. -/
def Table.reset_for_new_round (_t : Table) : Table := Table.new

/-- A sequence of `add_bet` calls applied in order. -/
def applyBets (t : Table) (bets : List (String × Nat)) : Table :=
  bets.foldl (fun acc b => acc.add_bet b.1 b.2) t

/-- The sum (as an unbounded natural number) of all pots' `total` fields. -/
def sumTot (pots : List Pot) : Nat :=
  (pots.map Pot.total).sum

/-- `GameController` from `game_controller.rs`; the `Deck` collaborator
(randomized, external) is not part of the verified core. -/
structure GameController where
  community_cards : List Card
  players : List Player
  table : Table
deriving DecidableEq, Repr

/-- The body of the `for player in self.get_players()` loop of
`GameController::get_winners`, acting on the accumulator
`(best_hand_rank, winners)`. -/
def winStep (player_pool : List String) (acc : HandRank × List String)
    (player : Player) : HandRank × List String :=
  if player_pool.contains player.player_id = true then
    match player.best_hand with
    | some hand =>
      if acc.1.val < hand.rank.val then (hand.rank, [player.player_id])
      else if hand.rank = acc.1 then (acc.1, acc.2 ++ [player.player_id])
      else acc
    | none => acc
  else acc

/-- `GameController::get_winners`: scan the player list, keeping everyone
in the pool whose `best_hand` *category* equals the running maximum
(starting from `HighCard`); `None` when nobody qualified. -/
def GameController.get_winners (gc : GameController) (player_pool : List String) :
    Option (List String) :=
  let result := gc.players.foldl (winStep player_pool) (.HighCard, [])
  if result.2 = [] then none else some result.2

/-- `GameController::resolve_pots`: compute each pot's winners from its
`eligible_players`, then write them back; nothing else changes. -/
def GameController.resolve_pots (gc : GameController) : GameController :=
  let winners_for_pots := gc.table.pots.map fun pot =>
    gc.get_winners pot.eligible_players
  { gc with table :=
      { gc.table with pots :=
          (gc.table.pots.zip winners_for_pots).map fun pw =>
            { pw.1 with winners := pw.2 } } }

/-! Concrete fixtures used to instantiate the theorems below. -/

/-- A spade of the given rank. -/
def cS (r : Rank) : Card := ⟨r, .Spades⟩

/-- A heart of the given rank. -/
def cH (r : Rank) : Card := ⟨r, .Hearts⟩

/-- A diamond of the given rank. -/
def cD (r : Rank) : Card := ⟨r, .Diamonds⟩

/-- A club of the given rank. -/
def cC (r : Rank) : Card := ⟨r, .Clubs⟩

/-- One pair of aces with king/queen/nine kickers. -/
def handAces : Hand := Hand.new [cS .Ace, cD .Ace, cC .King, cH .Queen, cS .Nine]

/-- One pair of twos with seven/five/four kickers. -/
def handTwos : Hand := Hand.new [cS .Two, cD .Two, cC .Seven, cH .Five, cS .Four]

/-- An ace-high no-pair hand. -/
def handHigh : Hand := Hand.new [cS .Two, cD .Five, cC .Nine, cH .Jack, cS .Ace]

/-- A player holding `handAces` as an evaluated best hand. -/
def playerAces : Player :=
  { Player.new "p1" "P1" 0 1000 with
      best_hand := some handAces, hand_strength := some handAces.rank }

/-- A player holding `handTwos` as an evaluated best hand. -/
def playerTwos : Player :=
  { Player.new "p2" "P2" 1 1000 with
      best_hand := some handTwos, hand_strength := some handTwos.rank }

/-- A controller with one pot contested by `playerAces` and `playerTwos`,
whose best hands share a category but differ in kickers. -/
def gcPair : GameController where
  community_cards := []
  players := [playerAces, playerTwos]
  table :=
    { Table.new with
        pots := [{ total := 100, eligible_players := ["p1", "p2"],
                   winners := none }] }

/-! ### Ordering infrastructure -/

theorem cmpNat_lt_iff {a b : Nat} : cmpNat a b = .lt ↔ a < b := by
  unfold cmpNat
  split <;> rename_i h1
  · simp [h1]
  · split <;> rename_i h2 <;> simp <;> omega

theorem cmpNat_eq_iff {a b : Nat} : cmpNat a b = .eq ↔ a = b := by
  unfold cmpNat
  split <;> rename_i h1
  · simp; omega
  · split <;> rename_i h2 <;> simp <;> omega

theorem cmpNat_gt_iff {a b : Nat} : cmpNat a b = .gt ↔ b < a := by
  unfold cmpNat
  split <;> rename_i h1
  · simp; omega
  · split <;> rename_i h2 <;> simp <;> omega

theorem cmpNat_self (a : Nat) : cmpNat a a = .eq := by
  simp [cmpNat]

theorem cmpNat_swap (a b : Nat) : (cmpNat a b).swap = cmpNat b a := by
  unfold cmpNat
  rcases Nat.lt_trichotomy a b with h | h | h
  · rw [if_pos h, if_neg (by omega : ¬b < a), if_neg (by omega : ¬b = a)]; rfl
  · rw [if_neg (by omega : ¬a < b), if_pos h, if_neg (by omega : ¬b < a),
      if_pos (by omega : b = a)]; rfl
  · rw [if_neg (by omega : ¬a < b), if_neg (by omega : ¬a = b), if_pos h]; rfl

theorem cmpL_self (l : List Nat) : cmpL l l = .eq := by
  induction l with
  | nil => rfl
  | cons a t ih => simp [cmpL, cmpNat_self, ih]

theorem cmpL_swap (l1 l2 : List Nat) : (cmpL l1 l2).swap = cmpL l2 l1 := by
  induction l1 generalizing l2 with
  | nil => cases l2 <;> rfl
  | cons a t1 ih =>
    cases l2 with
    | nil => rfl
    | cons b t2 =>
      simp only [cmpL]
      rw [← cmpNat_swap a b]
      cases hc : cmpNat a b <;> simp only [hc]
      · rfl
      · exact ih t2
      · rfl

theorem cmpL_eq_iff {l1 l2 : List Nat} (h : l1.length = l2.length) :
    cmpL l1 l2 = .eq ↔ l1 = l2 := by
  induction l1 generalizing l2 with
  | nil =>
    cases l2 with
    | nil => simp [cmpL]
    | cons b t2 => simp at h
  | cons a t1 ih =>
    cases l2 with
    | nil => simp at h
    | cons b t2 =>
      have hlen : t1.length = t2.length := by simp at h; omega
      simp only [cmpL]
      cases hc : cmpNat a b
      · have : a < b := cmpNat_lt_iff.mp hc
        simp; rintro rfl; omega
      · have : a = b := cmpNat_eq_iff.mp hc
        simp [this, ih hlen]
      · have : b < a := cmpNat_gt_iff.mp hc
        simp; rintro rfl; omega

theorem cmpL_ge_trans {l1 l2 l3 : List Nat} (h12 : l1.length = l2.length)
    (h23 : l2.length = l3.length) (g1 : cmpL l1 l2 ≠ .lt)
    (g2 : cmpL l2 l3 ≠ .lt) : cmpL l1 l3 ≠ .lt := by
  induction l1 generalizing l2 l3 with
  | nil =>
    cases l3 <;> simp [cmpL]
  | cons a t1 ih =>
    cases l2 with
    | nil => simp at h12
    | cons b t2 =>
      cases l3 with
      | nil => simp at h23
      | cons c t3 =>
        have h12' : t1.length = t2.length := by simp at h12; omega
        have h23' : t2.length = t3.length := by simp at h23; omega
        simp only [cmpL] at g1 g2 ⊢
        cases hab : cmpNat a b <;> rw [hab] at g1
        · exact absurd rfl g1
        · have hab' : a = b := cmpNat_eq_iff.mp hab
          cases hbc : cmpNat b c <;> rw [hbc] at g2
          · exact absurd rfl g2
          · have hbc' : b = c := cmpNat_eq_iff.mp hbc
            rw [cmpNat_eq_iff.mpr (hab'.trans hbc')]
            exact ih h12' h23' g1 g2
          · have hbc' : c < b := cmpNat_gt_iff.mp hbc
            rw [cmpNat_gt_iff.mpr (by omega)]
            simp
        · have hab' : b < a := cmpNat_gt_iff.mp hab
          cases hbc : cmpNat b c <;> rw [hbc] at g2
          · exact absurd rfl g2
          · have hbc' : b = c := cmpNat_eq_iff.mp hbc
            rw [cmpNat_gt_iff.mpr (by omega)]
            simp
          · have hbc' : c < b := cmpNat_gt_iff.mp hbc
            rw [cmpNat_gt_iff.mpr (by omega)]
            simp

theorem cmpL_gt_trans {l1 l2 l3 : List Nat} (h12 : l1.length = l2.length)
    (h23 : l2.length = l3.length) (g1 : cmpL l1 l2 = .gt)
    (g2 : cmpL l2 l3 = .gt) : cmpL l1 l3 = .gt := by
  have hge : cmpL l1 l3 ≠ .lt :=
    cmpL_ge_trans h12 h23 (by simp [g1]) (by simp [g2])
  cases hc : cmpL l1 l3
  · exact absurd hc hge
  · exfalso
    have heq : l1 = l3 := (cmpL_eq_iff (by omega)).mp hc
    subst heq
    have hs := cmpL_swap l1 l2
    rw [g1, g2] at hs
    simp [Ordering.swap] at hs
  · rfl

/-! ### The descending sort and its interaction with rank values -/

theorem length_insertDesc (c : Card) (l : List Card) :
    (insertDesc c l).length = l.length + 1 := by
  induction l with
  | nil => rfl
  | cons d ds ih =>
    simp only [insertDesc]
    split <;> simp [ih]

theorem length_sortDesc (l : List Card) : (sortDesc l).length = l.length := by
  induction l with
  | nil => rfl
  | cons c cs ih => simp [sortDesc, length_insertDesc, ih]

theorem mem_insertDesc {x c : Card} {l : List Card} :
    x ∈ insertDesc c l ↔ x = c ∨ x ∈ l := by
  induction l with
  | nil => simp [insertDesc]
  | cons d ds ih =>
    simp only [insertDesc]
    split <;> (simp [ih]; try tauto)

theorem descSorted_insertDesc {c : Card} {l : List Card} (h : DescSorted l) :
    DescSorted (insertDesc c l) := by
  induction l with
  | nil => simp [insertDesc, DescSorted]
  | cons d ds ih =>
    rw [DescSorted, List.pairwise_cons] at h
    obtain ⟨hd, hds⟩ := h
    simp only [insertDesc]
    split <;> rename_i hcd
    · rw [DescSorted, List.pairwise_cons]
      refine ⟨fun x hx => ?_, ?_⟩
      · rcases List.mem_cons.mp hx with rfl | hx'
        · exact hcd
        · exact le_trans (hd x hx') hcd
      · rw [List.pairwise_cons]
        exact ⟨hd, hds⟩
    · rw [DescSorted, List.pairwise_cons]
      refine ⟨fun x hx => ?_, ih hds⟩
      rcases mem_insertDesc.mp hx with rfl | hx'
      · omega
      · exact hd x hx'

theorem descSorted_sortDesc (l : List Card) : DescSorted (sortDesc l) := by
  induction l with
  | nil => simp [sortDesc, DescSorted]
  | cons c cs ih =>
    simp only [sortDesc]
    exact descSorted_insertDesc ih

theorem sortDesc_eq_of_sorted {l : List Card} (h : DescSorted l) :
    sortDesc l = l := by
  induction l with
  | nil => rfl
  | cons c cs ih =>
    rw [DescSorted, List.pairwise_cons] at h
    obtain ⟨hc, hcs⟩ := h
    simp only [sortDesc]
    rw [ih hcs]
    cases cs with
    | nil => rfl
    | cons d ds =>
      simp only [insertDesc]
      rw [if_pos (hc d (List.mem_cons_self d ds))]

theorem sortDesc_idem (l : List Card) : sortDesc (sortDesc l) = sortDesc l :=
  sortDesc_eq_of_sorted (descSorted_sortDesc l)

theorem hand_new_sortDesc (l : List Card) : Hand.new (sortDesc l) = Hand.new l := by
  simp [Hand.new, sortDesc_idem]

theorem length_hand_new (l : List Card) : (Hand.new l).cards.length = l.length := by
  simp [Hand.new, length_sortDesc]

theorem rankVals_insertDesc (c : Card) (l : List Card) :
    rankVals (insertDesc c l) = insertN c.rank.val (rankVals l) := by
  induction l with
  | nil => rfl
  | cons d ds ih =>
    simp only [insertDesc]
    split <;> rename_i hcd
    · simp [rankVals, insertN, hcd]
    · simp [rankVals, insertN, hcd] at ih ⊢
      exact ih

theorem rankVals_sortDesc (l : List Card) :
    rankVals (sortDesc l) = sortN (rankVals l) := by
  induction l with
  | nil => rfl
  | cons c cs ih =>
    simp only [sortDesc]
    rw [rankVals_insertDesc, ih]
    rfl

theorem length_rankVals (l : List Card) : (rankVals l).length = l.length := by
  simp [rankVals]

theorem length_insertN (n : Nat) (l : List Nat) :
    (insertN n l).length = l.length + 1 := by
  induction l with
  | nil => rfl
  | cons m ms ih =>
    simp only [insertN]
    split <;> simp [ih]

theorem length_sortN (l : List Nat) : (sortN l).length = l.length := by
  induction l with
  | nil => rfl
  | cons n ns ih => simp [sortN, length_insertN, ih]

/-! ### The hand comparison factors through (category value, sorted rank values) -/

theorem zipCmp_eq_cmpL (l1 l2 : List Card) :
    zipCmp l1 l2 = cmpL (rankVals l1) (rankVals l2) := by
  induction l1 generalizing l2 with
  | nil => cases l2 <;> rfl
  | cons c t1 ih =>
    cases l2 with
    | nil => rfl
    | cons d t2 =>
      simp only [zipCmp, rankVals, List.map_cons, cmpL]
      cases hc : cmpNat c.rank.val d.rank.val <;> simp only [hc]
      exact ih t2

theorem compare_eq_key (a b : Hand) :
    a.compare_two_hands b =
      match cmpNat a.rank.val b.rank.val with
      | .eq => cmpL (sortN (rankVals a.cards)) (sortN (rankVals b.cards))
      | o => o := by
  unfold Hand.compare_two_hands
  cases hc : cmpNat a.rank.val b.rank.val <;> simp only [hc]
  rw [zipCmp_eq_cmpL, rankVals_sortDesc, rankVals_sortDesc]

theorem compare_self (a : Hand) : a.compare_two_hands a = .eq := by
  rw [compare_eq_key, cmpNat_self]
  exact cmpL_self _

theorem compare_swap (a b : Hand) :
    (a.compare_two_hands b).swap = b.compare_two_hands a := by
  rw [compare_eq_key, compare_eq_key, ← cmpNat_swap a.rank.val b.rank.val]
  cases hc : cmpNat a.rank.val b.rank.val <;> simp only [hc]
  · rfl
  · exact cmpL_swap _ _
  · rfl

theorem compare_ge_trans {a b c : Hand} (hab : a.cards.length = b.cards.length)
    (hbc : b.cards.length = c.cards.length)
    (g1 : a.compare_two_hands b ≠ .lt) (g2 : b.compare_two_hands c ≠ .lt) :
    a.compare_two_hands c ≠ .lt := by
  rw [compare_eq_key] at g1 g2 ⊢
  have l1 : (sortN (rankVals a.cards)).length = (sortN (rankVals b.cards)).length := by
    simp [length_sortN, length_rankVals, hab]
  have l2 : (sortN (rankVals b.cards)).length = (sortN (rankVals c.cards)).length := by
    simp [length_sortN, length_rankVals, hbc]
  cases h1 : cmpNat a.rank.val b.rank.val <;> rw [h1] at g1
  · exact absurd rfl g1
  · have e1 : a.rank.val = b.rank.val := cmpNat_eq_iff.mp h1
    cases h2 : cmpNat b.rank.val c.rank.val <;> rw [h2] at g2
    · exact absurd rfl g2
    · have e2 : b.rank.val = c.rank.val := cmpNat_eq_iff.mp h2
      rw [cmpNat_eq_iff.mpr (e1.trans e2)]
      exact cmpL_ge_trans l1 l2 g1 g2
    · have e2 : c.rank.val < b.rank.val := cmpNat_gt_iff.mp h2
      rw [cmpNat_gt_iff.mpr (by omega)]
      simp
  · have e1 : b.rank.val < a.rank.val := cmpNat_gt_iff.mp h1
    cases h2 : cmpNat b.rank.val c.rank.val <;> rw [h2] at g2
    · exact absurd rfl g2
    · have e2 : b.rank.val = c.rank.val := cmpNat_eq_iff.mp h2
      rw [cmpNat_gt_iff.mpr (by omega)]
      simp
    · have e2 : c.rank.val < b.rank.val := cmpNat_gt_iff.mp h2
      rw [cmpNat_gt_iff.mpr (by omega)]
      simp

theorem compare_gt_trans {a b c : Hand} (hab : a.cards.length = b.cards.length)
    (hbc : b.cards.length = c.cards.length)
    (g1 : a.compare_two_hands b = .gt) (g2 : b.compare_two_hands c = .gt) :
    a.compare_two_hands c = .gt := by
  rw [compare_eq_key] at g1 g2 ⊢
  have l1 : (sortN (rankVals a.cards)).length = (sortN (rankVals b.cards)).length := by
    simp [length_sortN, length_rankVals, hab]
  have l2 : (sortN (rankVals b.cards)).length = (sortN (rankVals c.cards)).length := by
    simp [length_sortN, length_rankVals, hbc]
  cases h1 : cmpNat a.rank.val b.rank.val <;> rw [h1] at g1
  · exact absurd g1 (by simp)
  · have e1 : a.rank.val = b.rank.val := cmpNat_eq_iff.mp h1
    cases h2 : cmpNat b.rank.val c.rank.val <;> rw [h2] at g2
    · exact absurd g2 (by simp)
    · have e2 : b.rank.val = c.rank.val := cmpNat_eq_iff.mp h2
      rw [cmpNat_eq_iff.mpr (e1.trans e2)]
      exact cmpL_gt_trans l1 l2 g1 g2
    · have e2 : c.rank.val < b.rank.val := cmpNat_gt_iff.mp h2
      rw [cmpNat_gt_iff.mpr (by omega)]
  · have e1 : b.rank.val < a.rank.val := cmpNat_gt_iff.mp h1
    cases h2 : cmpNat b.rank.val c.rank.val <;> rw [h2] at g2
    · exact absurd g2 (by simp)
    · have e2 : b.rank.val = c.rank.val := cmpNat_eq_iff.mp h2
      rw [cmpNat_gt_iff.mpr (by omega)]
    · have e2 : c.rank.val < b.rank.val := cmpNat_gt_iff.mp h2
      rw [cmpNat_gt_iff.mpr (by omega)]

theorem compare_eq_trans {a b c : Hand} (hab : a.cards.length = b.cards.length)
    (hbc : b.cards.length = c.cards.length)
    (g1 : a.compare_two_hands b = .eq) (g2 : b.compare_two_hands c = .eq) :
    a.compare_two_hands c = .eq := by
  rw [compare_eq_key] at g1 g2 ⊢
  have l1 : (sortN (rankVals a.cards)).length = (sortN (rankVals b.cards)).length := by
    simp [length_sortN, length_rankVals, hab]
  have l2 : (sortN (rankVals b.cards)).length = (sortN (rankVals c.cards)).length := by
    simp [length_sortN, length_rankVals, hbc]
  cases h1 : cmpNat a.rank.val b.rank.val <;> rw [h1] at g1
  · exact absurd g1 (by simp)
  · cases h2 : cmpNat b.rank.val c.rank.val <;> rw [h2] at g2
    · exact absurd g2 (by simp)
    · have e1 : a.rank.val = b.rank.val := cmpNat_eq_iff.mp h1
      have e2 : b.rank.val = c.rank.val := cmpNat_eq_iff.mp h2
      rw [cmpNat_eq_iff.mpr (e1.trans e2)]
      have m1 : sortN (rankVals a.cards) = sortN (rankVals b.cards) :=
        (cmpL_eq_iff l1).mp g1
      have m2 : sortN (rankVals b.cards) = sortN (rankVals c.cards) :=
        (cmpL_eq_iff l2).mp g2
      rw [m1.trans m2]
      exact cmpL_self _
    · exact absurd g2 (by simp)
  · exact absurd g1 (by simp)

theorem rankVals_congr {l1 l2 : List Card}
    (h : l1.map Card.rank = l2.map Card.rank) : rankVals l1 = rankVals l2 := by
  have h1 : rankVals l1 = (l1.map Card.rank).map Rank.val := by
    rw [List.map_map]; rfl
  have h2 : rankVals l2 = (l2.map Card.rank).map Rank.val := by
    rw [List.map_map]; rfl
  rw [h1, h2, h]

theorem compare_suit_invariant {a b a' b' : Hand} (ra : a.rank = a'.rank)
    (rb : b.rank = b'.rank) (ca : a.cards.map Card.rank = a'.cards.map Card.rank)
    (cb : b.cards.map Card.rank = b'.cards.map Card.rank) :
    a.compare_two_hands b = a'.compare_two_hands b' := by
  rw [compare_eq_key, compare_eq_key, ra, rb, rankVals_congr ca, rankVals_congr cb]

/-- C6: `compare_two_hands` is a strict weak order with category as primary
key and descending rank-by-rank comparison as secondary key: it is
reflexive-`Equal`, `Greater` flips to `Less` under argument swap, it is
transitive (both on `Greater` chains and on `Equal` chains) over genuine
hands (5 cards each, the `Hand` data-model invariant), and suits never
affect the result: the comparison depends only on the stored categories
and the cards' ranks, so hands identical up to suits compare `Equal`. -/
theorem compare_two_hands_strict_weak_order (a b c a' b' : Hand) :
    a.compare_two_hands a = .eq ∧
    (a.compare_two_hands b = .gt → b.compare_two_hands a = .lt) ∧
    (a.cards.length = 5 → b.cards.length = 5 → c.cards.length = 5 →
      a.compare_two_hands b = .gt → b.compare_two_hands c = .gt →
      a.compare_two_hands c = .gt) ∧
    (a.cards.length = 5 → b.cards.length = 5 → c.cards.length = 5 →
      a.compare_two_hands b = .eq → b.compare_two_hands c = .eq →
      a.compare_two_hands c = .eq) ∧
    (a.rank = a'.rank → b.rank = b'.rank →
      a.cards.map Card.rank = a'.cards.map Card.rank →
      b.cards.map Card.rank = b'.cards.map Card.rank →
      a.compare_two_hands b = a'.compare_two_hands b') := by
  refine ⟨compare_self a, ?_, ?_, ?_, ?_⟩
  · intro hg
    rw [← compare_swap, hg]
    rfl
  · intro la lb lc g1 g2
    exact compare_gt_trans (la.trans lb.symm) (lb.trans lc.symm) g1 g2
  · intro la lb lc g1 g2
    exact compare_eq_trans (la.trans lb.symm) (lb.trans lc.symm) g1 g2
  · exact compare_suit_invariant

/-- Instantiation of the C6 strict-weak-order theorem: transitivity at
three concrete hands (pair of aces > pair of twos > ace high). -/
theorem compare_two_hands_swo_witness :
    handAces.compare_two_hands handHigh = .gt :=
  (compare_two_hands_strict_weak_order handAces handTwos handHigh handAces handTwos).2.2.1
    (by decide) (by decide) (by decide) (by decide) (by decide)

/-! ### Combinations and the maximum hand -/

theorem length_of_mem_combinations {n : Nat} {l sub : List α}
    (h : sub ∈ combinations n l) : sub.length = n := by
  induction l generalizing n sub with
  | nil =>
    cases n with
    | zero => simp [combinations] at h; simp [h]
    | succ n => simp [combinations] at h
  | cons x xs ih =>
    cases n with
    | zero => simp [combinations] at h; simp [h]
    | succ n =>
      simp only [combinations, List.mem_append, List.mem_map] at h
      rcases h with ⟨c, hc, rfl⟩ | h
      · simp [ih hc]
      · exact ih h

theorem combinations_ne_nil {n : Nat} {l : List α} (h : n ≤ l.length) :
    combinations n l ≠ [] := by
  induction l generalizing n with
  | nil =>
    cases n with
    | zero => simp [combinations]
    | succ n => simp at h
  | cons x xs ih =>
    cases n with
    | zero => simp [combinations]
    | succ n =>
      simp only [combinations]
      intro hemp
      rcases List.append_eq_nil.mp hemp with ⟨h1, h2⟩
      rw [List.map_eq_nil_iff] at h1
      exact ih (by simp at h; omega) h1

theorem combinations_eq_nil {n : Nat} {l : List α} (h : l.length < n) :
    combinations n l = [] := by
  induction l generalizing n with
  | nil =>
    cases n with
    | zero => simp at h
    | succ n => rfl
  | cons x xs ih =>
    cases n with
    | zero => simp at h
    | succ n =>
      simp only [combinations, List.append_eq_nil, List.map_eq_nil_iff]
      constructor
      · exact ih (by simp at h; omega)
      · exact ih (by simp at h; omega)

theorem foldl_max_ge (xs : List Hand) (h0 : Hand)
    (hx : ∀ x ∈ xs, x.cards.length = 5) (h05 : h0.cards.length = 5) :
    (xs.foldl (fun acc y => if Hand.compare_two_hands acc y = .gt then acc else y)
        h0).cards.length = 5 ∧
    (xs.foldl (fun acc y => if Hand.compare_two_hands acc y = .gt then acc else y)
        h0).compare_two_hands h0 ≠ .lt ∧
    ∀ x ∈ xs,
      (xs.foldl (fun acc y => if Hand.compare_two_hands acc y = .gt then acc else y)
          h0).compare_two_hands x ≠ .lt := by
  induction xs generalizing h0 with
  | nil =>
    refine ⟨h05, ?_, by simp⟩
    simp [compare_self]
  | cons y ys ih =>
    have hy5 : y.cards.length = 5 := hx y (List.mem_cons_self y ys)
    have hys : ∀ x ∈ ys, x.cards.length = 5 := fun x hmem =>
      hx x (List.mem_cons_of_mem y hmem)
    simp only [List.foldl_cons]
    by_cases hgt : Hand.compare_two_hands h0 y = .gt
    · rw [if_pos hgt]
      obtain ⟨hm5, hmh, hmx⟩ := ih h0 hys h05
      refine ⟨hm5, hmh, fun x hmem => ?_⟩
      rcases List.mem_cons.mp hmem with rfl | hmem'
      · exact compare_ge_trans (hm5.trans h05.symm) (h05.trans hy5.symm) hmh
          (by simp [hgt])
      · exact hmx x hmem'
    · rw [if_neg hgt]
      obtain ⟨hm5, hmh, hmx⟩ := ih y hys hy5
      have hyh0 : y.compare_two_hands h0 ≠ .lt := by
        rw [← compare_swap h0 y]
        cases hc : Hand.compare_two_hands h0 y
        · simp [Ordering.swap]
        · simp [Ordering.swap]
        · exact absurd hc hgt
      refine ⟨hm5, ?_, fun x hmem => ?_⟩
      · exact compare_ge_trans (hm5.trans hy5.symm) (hy5.trans h05.symm) hmh hyh0
      · rcases List.mem_cons.mp hmem with rfl | hmem'
        · exact hmh
        · exact hmx x hmem'

/-- C5: over any input of at least 5 cards, `find_best_hand` returns a hand
that is greater than or equal — under the `compare_two_hands` total order —
to the hand built from every 5-card combination of the input; in
particular its category value dominates each combination's category. -/
theorem find_best_hand_maximal (cards : List Card) (h : 5 ≤ cards.length)
    (sub : List Card) (hsub : sub ∈ combinations 5 cards) :
    (find_best_hand cards).compare_two_hands (Hand.new sub) ≠ .lt ∧
    (Hand.new sub).rank.val ≤ (find_best_hand cards).rank.val := by
  have hne : (combinations 5 cards).map (fun comb => Hand.new (sortDesc comb)) ≠ [] := by
    rw [Ne, List.map_eq_nil_iff]
    exact combinations_ne_nil h
  obtain ⟨h0, rest, hcons⟩ := List.exists_cons_of_ne_nil hne
  have hfb : find_best_hand cards =
      rest.foldl (fun acc y => if Hand.compare_two_hands acc y = .gt then acc else y) h0 := by
    unfold find_best_hand
    rw [hcons]
    rfl
  have hlen : ∀ x ∈ (combinations 5 cards).map (fun comb => Hand.new (sortDesc comb)),
      x.cards.length = 5 := by
    intro x hmem
    rcases List.mem_map.mp hmem with ⟨comb, hcomb, rfl⟩
    rw [length_hand_new, length_sortDesc]
    exact length_of_mem_combinations hcomb
  have h05 : h0.cards.length = 5 := hlen h0 (by rw [hcons]; exact List.mem_cons_self h0 rest)
  have hrest : ∀ x ∈ rest, x.cards.length = 5 := fun x hmem =>
    hlen x (by rw [hcons]; exact List.mem_cons_of_mem h0 hmem)
  obtain ⟨hm5, hmh, hmx⟩ := foldl_max_ge rest h0 hrest h05
  have hmem : Hand.new (sortDesc sub) ∈
      (combinations 5 cards).map (fun comb => Hand.new (sortDesc comb)) :=
    List.mem_map.mpr ⟨sub, hsub, rfl⟩
  rw [hcons] at hmem
  have hge : (find_best_hand cards).compare_two_hands (Hand.new (sortDesc sub)) ≠ .lt := by
    rw [hfb]
    rcases List.mem_cons.mp hmem with heq | hmem'
    · rw [← heq] at hmh ⊢
      exact hmh
    · exact hmx _ hmem'
  rw [hand_new_sortDesc] at hge
  refine ⟨hge, ?_⟩
  by_contra hlt
  rw [compare_eq_key] at hge
  rw [cmpNat_lt_iff.mpr (by omega)] at hge
  exact hge rfl

/-- Instantiation of the C5 maximality theorem at a concrete 5-card input
(whose only 5-card combination is the input itself). -/
theorem find_best_hand_maximal_witness :
    (find_best_hand [cS .Two, cD .Five, cC .Nine, cH .Jack, cS .Ace]).compare_two_hands
        (Hand.new [cS .Two, cD .Five, cC .Nine, cH .Jack, cS .Ace]) ≠ .lt ∧
    (Hand.new [cS .Two, cD .Five, cC .Nine, cH .Jack, cS .Ace]).rank.val ≤
      (find_best_hand [cS .Two, cD .Five, cC .Nine, cH .Jack, cS .Ace]).rank.val :=
  find_best_hand_maximal _ (by decide) _ (by decide)

theorem rank_val_lt (r : Rank) : r.val < 13 := by
  cases r <;> decide

theorem sum_map_add (l : List α) (f g : α → Nat) :
    (l.map fun x => f x + g x).sum = (l.map f).sum + (l.map g).sum := by
  induction l with
  | nil => rfl
  | cons a t ih =>
    simp [ih]
    omega

theorem sum_range_indicator (n k : Nat) (h : k < n) :
    ((List.range n).map fun r => if k = r then (1 : Nat) else 0).sum = 1 := by
  induction n with
  | zero => omega
  | succ n ih =>
    rw [List.range_succ, List.map_append, List.sum_append]
    by_cases hk : k = n
    · have hz : ((List.range n).map fun r => if k = r then (1 : Nat) else 0).sum = 0 := by
        apply List.sum_eq_zero
        intro x hx
        rcases List.mem_map.mp hx with ⟨r, hr, rfl⟩
        have : r < n := List.mem_range.mp hr
        rw [if_neg (by omega)]
      rw [hz]
      simp [hk]
    · have hlt : k < n := by omega
      rw [ih hlt]
      simp [hk]

theorem sum_count_ranks (hand : List Card) : (count_ranks hand).sum = hand.length := by
  induction hand with
  | nil => decide
  | cons c t ih =>
    have hstep : count_ranks (c :: t) = (List.range 13).map fun r =>
        (if c.rank.val = r then 1 else 0) + (t.filter fun x => x.rank.val = r).length := by
      unfold count_ranks
      apply List.map_congr_left
      intro r hr
      by_cases hcr : c.rank.val = r
      · simp [List.filter_cons, hcr]
        omega
      · simp [List.filter_cons, hcr]
    rw [hstep, sum_map_add, sum_range_indicator 13 c.rank.val (rank_val_lt c.rank)]
    have hct : ((List.range 13).map fun r => (t.filter fun x => x.rank.val = r).length) =
        count_ranks t := rfl
    rw [hct, ih, List.length_cons]
    omega

theorem two_mul_count_pairs_le_sum (l : List Nat) :
    2 * (l.filter fun count => count == 2).length ≤ l.sum := by
  induction l with
  | nil => simp
  | cons a t ih =>
    by_cases ha : a = 2
    · subst ha
      simp [List.filter_cons]
      omega
    · have hne : (a == 2) = false := by simp [ha]
      simp [List.filter_cons, hne]
      omega

theorem mem_two_iff (l : List Nat) :
    2 ∈ l ↔ 0 < (l.filter fun count => count == 2).length := by
  induction l with
  | nil => simp
  | cons a t ih =>
    by_cases ha : a = 2
    · subst ha
      simp [List.filter_cons]
    · have hne : (a == 2) = false := by simp [ha]
      have h2a : ¬(2 = a) := fun h => ha h.symm
      simp [List.filter_cons, hne, h2a, ih]

theorem evaluate_hand_eq_spec_classify (hand : List Card) (h5 : hand.length = 5) :
    evaluate_hand hand = spec_classify hand := by
  have hsum : (count_ranks hand).sum = 5 := by rw [sum_count_ranks, h5]
  have hple := two_mul_count_pairs_le_sum (count_ranks hand)
  rw [hsum] at hple
  have hc2 := mem_two_iff (count_ranks hand)
  unfold evaluate_hand spec_classify
  by_cases hf : check_flush (count_suits hand) = true <;>
    by_cases hs : check_straight (count_ranks hand) = true
  · simp [hf, hs]
  · by_cases h4 : (4 : Nat) ∈ count_ranks hand
    · simp [hf, hs, h4]
    · by_cases h3m : (3 : Nat) ∈ count_ranks hand <;>
        by_cases h2m : (2 : Nat) ∈ count_ranks hand <;>
        simp [hf, hs, h4, h3m, h2m]
  · by_cases h4 : (4 : Nat) ∈ count_ranks hand
    · simp [hf, hs, h4]
    · by_cases h3m : (3 : Nat) ∈ count_ranks hand <;>
        by_cases h2m : (2 : Nat) ∈ count_ranks hand <;>
        simp [hf, hs, h4, h3m, h2m]
  · by_cases h4 : (4 : Nat) ∈ count_ranks hand
    · simp [hf, hs, h4]
    · by_cases h3m : (3 : Nat) ∈ count_ranks hand
      · by_cases h2m : (2 : Nat) ∈ count_ranks hand
        · simp [hf, hs, h4, h3m, h2m]
        · simp [hf, hs, h4, h3m, h2m]
      · by_cases hp2 : ((count_ranks hand).filter fun count => count == 2).length = 2
        · simp [hf, hs, h4, h3m, hp2]
        · by_cases h2m : (2 : Nat) ∈ count_ranks hand
          · have hp1 : ((count_ranks hand).filter fun count => count == 2).length = 1 := by
              have := hc2.mp h2m
              omega
            simp [hf, hs, h4, h3m, h2m, hp2, hp1]
          · have hp0 : ((count_ranks hand).filter fun count => count == 2).length = 0 := by
              rcases Nat.eq_zero_or_pos
                ((count_ranks hand).filter fun count => count == 2).length with h | h
              · exact h
              · exact absurd (hc2.mpr h) h2m
            simp [hf, hs, h4, h3m, h2m, hp2, hp0]

/-- C4: the classifier realizes the specification's precedence rules: the
four category fixtures come out as FullHouse, StraightFlush, HighCard and
TwoPair; the wheel A-2-3-4-5 is *not* a straight (Ace is high only, so the
unsuited wheel is HighCard and the suited wheel is Flush, not
StraightFlush); and, universally, any 5 cards that are simultaneously a
flush and a straight classify as StraightFlush (precedence rule 1). -/
theorem evaluate_hand_fixtures :
    (Hand.new [cS .Two, cD .Two, cC .Two, cH .Five, cD .Five]).rank = .FullHouse ∧
    (Hand.new [cS .Nine, cS .Ten, cS .Jack, cS .Queen, cS .King]).rank = .StraightFlush ∧
    (Hand.new [cS .Two, cD .Five, cC .Nine, cH .Jack, cS .Ace]).rank = .HighCard ∧
    (Hand.new [cS .Ace, cD .Ace, cC .King, cH .King, cS .Two]).rank = .TwoPair ∧
    (Hand.new [cS .Ace, cD .Two, cC .Three, cH .Four, cS .Five]).rank = .HighCard ∧
    (Hand.new [cS .Ace, cS .Two, cS .Three, cS .Four, cS .Five]).rank = .Flush ∧
    (∀ hand : List Card, hand.length = 5 → evaluate_hand hand = spec_classify hand) ∧
    ∀ hand : List Card, check_flush (count_suits hand) = true →
      check_straight (count_ranks hand) = true →
      evaluate_hand hand = .StraightFlush := by
  refine ⟨by decide, by decide, by decide, by decide, by decide, by decide,
    evaluate_hand_eq_spec_classify, ?_⟩
  intro hand hf hs
  simp [evaluate_hand, hf, hs]

/-- Instantiation of the C4 universal conjuncts: the spec-rule classifier
agrees with `evaluate_hand` on the full-house fixture, and the
straight-flush fixture takes precedence rule 1. -/
theorem evaluate_hand_fixtures_witness :
    evaluate_hand [cS .Two, cD .Two, cC .Two, cH .Five, cD .Five] =
      spec_classify [cS .Two, cD .Two, cC .Two, cH .Five, cD .Five] ∧
    evaluate_hand [cS .Nine, cS .Ten, cS .Jack, cS .Queen, cS .King] = .StraightFlush :=
  ⟨evaluate_hand_fixtures.2.2.2.2.2.2.1 _ (by decide),
   evaluate_hand_fixtures.2.2.2.2.2.2.2 _ (by decide) (by decide)⟩

/-- C9: for every input of fewer than 5 cards (the empty input included),
`find_best_hand` returns the defined fallback — a `HighCard` hand with an
empty card sequence — and the one caller, `Player::evaluate_hand`, inherits
exactly this fallback rather than implementing its own. -/
theorem find_best_hand_degenerate (cards : List Card) (h : cards.length < 5) :
    find_best_hand cards = { cards := [], rank := .HighCard } ∧
    ∀ (p : Player) (community : List Card),
      (p.hole_cards ++ community).length < 5 →
      (p.evaluate_hand community).best_hand = some { cards := [], rank := .HighCard } := by
  constructor
  · unfold find_best_hand
    rw [combinations_eq_nil h]
    rfl
  · intro p community hlen
    have hfb : find_best_hand (p.hole_cards ++ community) =
        { cards := [], rank := .HighCard } := by
      unfold find_best_hand
      rw [combinations_eq_nil hlen]
      rfl
    simp [Player.evaluate_hand, hfb]

/-- Instantiation of the C9 fallback theorem at a 3-card input. -/
theorem find_best_hand_degenerate_witness :
    find_best_hand [cS .Two, cD .Five, cC .Nine] = { cards := [], rank := .HighCard } :=
  (find_best_hand_degenerate [cS .Two, cD .Five, cC .Nine] (by decide)).1

/-! ### The winner scan of `GameController::get_winners` -/

theorem handRank_val_inj {a b : HandRank} (h : a.val = b.val) : a = b := by
  cases a <;> cases b <;> first | rfl | simp [HandRank.val] at h

theorem winStep_split (pool : List String) (acc : HandRank × List String) (p : Player) :
    ((pool.contains p.player_id = false ∨ p.best_hand = none) ∧
      winStep pool acc p = acc) ∨
    (∃ hand, pool.contains p.player_id = true ∧ p.best_hand = some hand ∧
      acc.1.val < hand.rank.val ∧ winStep pool acc p = (hand.rank, [p.player_id])) ∨
    (∃ hand, pool.contains p.player_id = true ∧ p.best_hand = some hand ∧
      hand.rank.val = acc.1.val ∧
      winStep pool acc p = (acc.1, acc.2 ++ [p.player_id])) ∨
    (∃ hand, pool.contains p.player_id = true ∧ p.best_hand = some hand ∧
      hand.rank.val < acc.1.val ∧ winStep pool acc p = acc) := by
  cases hc : pool.contains p.player_id
  · have hm : ¬p.player_id ∈ pool := by simpa using hc
    exact Or.inl ⟨Or.inl rfl, by simp [winStep, hm]⟩
  · have hm : p.player_id ∈ pool := by simpa using hc
    cases hb : p.best_hand with
    | none => exact Or.inl ⟨Or.inr rfl, by simp [winStep, hm, hb]⟩
    | some hand =>
      by_cases h1 : acc.1.val < hand.rank.val
      · exact Or.inr (Or.inl ⟨hand, rfl, rfl, h1, by simp [winStep, hm, hb, h1]⟩)
      · by_cases h2 : hand.rank = acc.1
        · refine Or.inr (Or.inr (Or.inl ⟨hand, rfl, rfl, by rw [h2], ?_⟩))
          simp [winStep, hm, hb, h1, h2]
        · have hlt : hand.rank.val < acc.1.val := by
            rcases Nat.lt_or_ge acc.1.val hand.rank.val with h | h
            · exact absurd h h1
            · rcases Nat.lt_or_ge hand.rank.val acc.1.val with h' | h'
              · exact h'
              · exact absurd (handRank_val_inj (by omega)) h2
          exact Or.inr (Or.inr (Or.inr ⟨hand, rfl, rfl, hlt,
            by simp [winStep, hm, hb, h1, h2]⟩))

theorem winStep_fst_le (pool : List String) (acc : HandRank × List String)
    (p : Player) : acc.1.val ≤ (winStep pool acc p).1.val := by
  rcases winStep_split pool acc p with ⟨-, he⟩ | ⟨hand, -, -, h1, he⟩ |
    ⟨hand, -, -, h2, he⟩ | ⟨hand, -, -, -, he⟩
  · rw [he]
  · rw [he]
    exact Nat.le_of_lt h1
  · rw [he]
  · rw [he]

theorem foldl_winStep_fst_mono (pool : List String) (ps : List Player)
    (acc : HandRank × List String) :
    acc.1.val ≤ (ps.foldl (winStep pool) acc).1.val := by
  induction ps generalizing acc with
  | nil => exact Nat.le_refl _
  | cons p ps ih =>
    exact Nat.le_trans (winStep_fst_le pool acc p) (ih (winStep pool acc p))

theorem foldl_winStep_fst_dominates (pool : List String) (ps : List Player)
    (acc : HandRank × List String) :
    ∀ q ∈ ps, pool.contains q.player_id = true → ∀ hq, q.best_hand = some hq →
      hq.rank.val ≤ (ps.foldl (winStep pool) acc).1.val := by
  induction ps generalizing acc with
  | nil => intro q hmem; simp at hmem
  | cons p ps ih =>
    intro q hmem hcq hq hbq
    rcases List.mem_cons.mp hmem with rfl | hmem'
    · refine Nat.le_trans ?_ (foldl_winStep_fst_mono pool ps (winStep pool acc q))
      rcases winStep_split pool acc q with ⟨hc, he⟩ | ⟨hand, -, hb, h1, he⟩ |
        ⟨hand, -, hb, h2, he⟩ | ⟨hand, -, hb, hlt, he⟩
      · rcases hc with hc | hc
        · rw [hcq] at hc
          exact Bool.noConfusion hc
        · rw [hbq] at hc
          exact Option.noConfusion hc
      · rw [hbq] at hb
        injection hb with hb
        rw [he, hb]
      · rw [hbq] at hb
        injection hb with hb
        rw [he, hb]
        exact Nat.le_of_eq h2
      · rw [hbq] at hb
        injection hb with hb
        rw [he, hb]
        exact Nat.le_of_lt hlt
    · exact ih (winStep pool acc p) q hmem' hcq hq hbq

theorem foldl_winStep_fst_bound (pool : List String) (ps : List Player)
    (acc : HandRank × List String) (M : Nat) (hacc : acc.1.val ≤ M)
    (hall : ∀ q ∈ ps, pool.contains q.player_id = true → ∀ hq,
      q.best_hand = some hq → hq.rank.val ≤ M) :
    (ps.foldl (winStep pool) acc).1.val ≤ M := by
  induction ps generalizing acc with
  | nil => exact hacc
  | cons p ps ih =>
    have hstep : (winStep pool acc p).1.val ≤ M := by
      rcases winStep_split pool acc p with ⟨-, he⟩ | ⟨hand, hc, hb, h1, he⟩ |
        ⟨hand, -, -, -, he⟩ | ⟨hand, -, -, -, he⟩ <;> rw [he]
      · exact hacc
      · exact hall p (List.mem_cons_self p ps) hc hand hb
      · exact hacc
      · exact hacc
    exact ih (winStep pool acc p) hstep fun q hmem =>
      hall q (List.mem_cons_of_mem p hmem)

theorem foldl_winStep_mem (pool : List String) (ps : List Player)
    (acc : HandRank × List String) (x : String) :
    x ∈ (ps.foldl (winStep pool) acc).2 ↔
      (x ∈ acc.2 ∧ (ps.foldl (winStep pool) acc).1.val = acc.1.val) ∨
      ∃ p ∈ ps, pool.contains p.player_id = true ∧ p.player_id = x ∧
        ∃ hp, p.best_hand = some hp ∧
          hp.rank.val = (ps.foldl (winStep pool) acc).1.val := by
  induction ps generalizing acc with
  | nil => simp
  | cons p ps ih =>
    simp only [List.foldl_cons]
    rcases winStep_split pool acc p with ⟨hc, he⟩ | ⟨hand, hc, hb, h1, he⟩ |
      ⟨hand, hc, hb, h2, he⟩ | ⟨hand, hc, hb, hlt, he⟩ <;> rw [he] <;> rw [ih]
    · constructor
      · rintro (h | ⟨q, hq, hrest⟩)
        · exact Or.inl h
        · exact Or.inr ⟨q, List.mem_cons_of_mem p hq, hrest⟩
      · rintro (h | ⟨q, hq, hcq, hidq, hp, hbp, hrp⟩)
        · exact Or.inl h
        · rcases List.mem_cons.mp hq with rfl | hq'
          · rcases hc with hc' | hc'
            · rw [hcq] at hc'
              exact Bool.noConfusion hc'
            · rw [hbp] at hc'
              exact Option.noConfusion hc'
          · exact Or.inr ⟨q, hq', hcq, hidq, hp, hbp, hrp⟩
    · have hmono : hand.rank.val ≤
          (ps.foldl (winStep pool) (hand.rank, [p.player_id])).1.val := by
        simpa using foldl_winStep_fst_mono pool ps (hand.rank, [p.player_id])
      constructor
      · rintro (⟨hx, hfst⟩ | ⟨q, hq, hcq, hidq, hp, hbp, hrp⟩)
        · refine Or.inr ⟨p, List.mem_cons_self p ps, hc, ?_, hand, hb, ?_⟩
          · exact (List.mem_singleton.mp hx).symm
          · exact hfst.symm
        · exact Or.inr ⟨q, List.mem_cons_of_mem p hq, hcq, hidq, hp, hbp, hrp⟩
      · rintro (⟨hx, hfst⟩ | ⟨q, hq, hcq, hidq, hp, hbp, hrp⟩)
        · exact absurd hfst (by omega)
        · rcases List.mem_cons.mp hq with rfl | hq'
          · rw [hb] at hbp
            injection hbp with hbp
            refine Or.inl ⟨by simp [← hidq], ?_⟩
            rw [← hrp, ← hbp]
          · exact Or.inr ⟨q, hq', hcq, hidq, hp, hbp, hrp⟩
    · constructor
      · rintro (⟨hx, hfst⟩ | ⟨q, hq, hcq, hidq, hp, hbp, hrp⟩)
        · rcases List.mem_append.mp hx with hx' | hx'
          · exact Or.inl ⟨hx', hfst⟩
          · refine Or.inr ⟨p, List.mem_cons_self p ps, hc,
              (List.mem_singleton.mp hx').symm, hand, hb, ?_⟩
            rw [h2, ← hfst]
        · exact Or.inr ⟨q, List.mem_cons_of_mem p hq, hcq, hidq, hp, hbp, hrp⟩
      · rintro (⟨hx, hfst⟩ | ⟨q, hq, hcq, hidq, hp, hbp, hrp⟩)
        · exact Or.inl ⟨List.mem_append_left _ hx, hfst⟩
        · rcases List.mem_cons.mp hq with rfl | hq'
          · rw [hb] at hbp
            injection hbp with hbp
            refine Or.inl ⟨List.mem_append_right _ (by simp [← hidq]), ?_⟩
            rw [← hrp, ← hbp, h2]
          · exact Or.inr ⟨q, hq', hcq, hidq, hp, hbp, hrp⟩
    · have hmono : acc.1.val ≤ (ps.foldl (winStep pool) acc).1.val :=
        foldl_winStep_fst_mono pool ps acc
      constructor
      · rintro (h | ⟨q, hq, hrest⟩)
        · exact Or.inl h
        · exact Or.inr ⟨q, List.mem_cons_of_mem p hq, hrest⟩
      · rintro (h | ⟨q, hq, hcq, hidq, hp, hbp, hrp⟩)
        · exact Or.inl h
        · rcases List.mem_cons.mp hq with rfl | hq'
          · rw [hb] at hbp
            injection hbp with hbp
            rw [← hbp] at hrp
            omega
          · exact Or.inr ⟨q, hq', hcq, hidq, hp, hbp, hrp⟩

theorem foldl_winStep_snd_nil_iff (pool : List String) (ps : List Player)
    (acc : HandRank × List String) :
    (ps.foldl (winStep pool) acc).2 = [] ↔
      acc.2 = [] ∧ ∀ p ∈ ps, pool.contains p.player_id = true →
        ∀ hp, p.best_hand = some hp → hp.rank.val < acc.1.val := by
  induction ps generalizing acc with
  | nil => simp
  | cons p ps ih =>
    simp only [List.foldl_cons]
    rcases winStep_split pool acc p with ⟨hc, he⟩ | ⟨hand, hc, hb, h1, he⟩ |
      ⟨hand, hc, hb, h2, he⟩ | ⟨hand, hc, hb, hlt, he⟩ <;> rw [he] <;> rw [ih]
    · constructor
      · rintro ⟨ha, hrest⟩
        refine ⟨ha, fun q hq hcq hp hbp => ?_⟩
        rcases List.mem_cons.mp hq with rfl | hq'
        · rcases hc with hc' | hc'
          · rw [hcq] at hc'
            exact Bool.noConfusion hc'
          · rw [hbp] at hc'
            exact Option.noConfusion hc'
        · exact hrest q hq' hcq hp hbp
      · rintro ⟨ha, hall⟩
        exact ⟨ha, fun q hq => hall q (List.mem_cons_of_mem p hq)⟩
    · constructor
      · rintro ⟨ha, -⟩
        exact absurd ha (by simp)
      · rintro ⟨ha, hall⟩
        have := hall p (List.mem_cons_self p ps) hc hand hb
        omega
    · constructor
      · rintro ⟨ha, -⟩
        exact absurd ha (by simp)
      · rintro ⟨ha, hall⟩
        have := hall p (List.mem_cons_self p ps) hc hand hb
        omega
    · constructor
      · rintro ⟨ha, hrest⟩
        refine ⟨ha, fun q hq hcq hp hbp => ?_⟩
        rcases List.mem_cons.mp hq with rfl | hq'
        · rw [hb] at hbp
          injection hbp with hbp
          rw [← hbp]
          exact hlt
        · exact hrest q hq' hcq hp hbp
      · rintro ⟨ha, hall⟩
        exact ⟨ha, fun q hq => hall q (List.mem_cons_of_mem p hq)⟩

theorem get_winners_mem_iff (gc : GameController) (pool : List String) (x : String) :
    (∃ w, gc.get_winners pool = some w ∧ x ∈ w) ↔
      ∃ p ∈ gc.players, pool.contains p.player_id = true ∧ p.player_id = x ∧
        ∃ hp, p.best_hand = some hp ∧
          ∀ q ∈ gc.players, pool.contains q.player_id = true →
            ∀ hq, q.best_hand = some hq → hq.rank.val ≤ hp.rank.val := by
  constructor
  · rintro ⟨w, hw, hxw⟩
    unfold GameController.get_winners at hw
    by_cases hr : (gc.players.foldl (winStep pool) (.HighCard, [])).2 = []
    · rw [if_pos hr] at hw
      exact Option.noConfusion hw
    · rw [if_neg hr] at hw
      injection hw with hw
      rw [← hw] at hxw
      rcases (foldl_winStep_mem pool gc.players (.HighCard, []) x).mp hxw with
        ⟨hmem, -⟩ | ⟨p, hpm, hcp, hip, hp, hbp, hrp⟩
      · simp at hmem
      · refine ⟨p, hpm, hcp, hip, hp, hbp, fun q hqm hcq hq hbq => ?_⟩
        rw [hrp]
        exact foldl_winStep_fst_dominates pool gc.players (.HighCard, []) q hqm hcq hq hbq
  · rintro ⟨p, hpm, hcp, hip, hp, hbp, hall⟩
    have hdom : hp.rank.val ≤ (gc.players.foldl (winStep pool) (.HighCard, [])).1.val :=
      foldl_winStep_fst_dominates pool gc.players (.HighCard, []) p hpm hcp hp hbp
    have hbound : (gc.players.foldl (winStep pool) (.HighCard, [])).1.val ≤ hp.rank.val :=
      foldl_winStep_fst_bound pool gc.players (.HighCard, []) hp.rank.val
        (Nat.zero_le _) hall
    have hmem : x ∈ (gc.players.foldl (winStep pool) (.HighCard, [])).2 :=
      (foldl_winStep_mem pool gc.players (.HighCard, []) x).mpr
        (Or.inr ⟨p, hpm, hcp, hip, hp, hbp, by omega⟩)
    have hr : (gc.players.foldl (winStep pool) (.HighCard, [])).2 ≠ [] := by
      intro h0
      rw [h0] at hmem
      simp at hmem
    unfold GameController.get_winners
    rw [if_neg hr]
    exact ⟨_, rfl, hmem⟩

/-- C10: `get_winners` is a pure query (in this embedding a function of the
controller state that returns no modified state — `resolve_pots` is the only
writer of pot fields), and it returns `none` exactly when no player of the
controller that belongs to the pool has an evaluated `best_hand`; in
particular the empty pool yields `none`, and a successful result is never
the empty winner list. -/
theorem get_winners_no_winner (gc : GameController) (pool : List String) :
    (gc.get_winners pool = none ↔
      ∀ p ∈ gc.players, pool.contains p.player_id = true → p.best_hand = none) ∧
    (∀ w, gc.get_winners pool = some w → w ≠ []) ∧
    gc.get_winners [] = none := by
  have hnone : ∀ pl : List String, (gc.get_winners pl = none ↔
      ∀ p ∈ gc.players, pl.contains p.player_id = true → p.best_hand = none) := by
    intro pl
    unfold GameController.get_winners
    by_cases hr : (gc.players.foldl (winStep pl) (.HighCard, [])).2 = []
    · rw [if_pos hr]
      simp only [true_iff]
      rcases (foldl_winStep_snd_nil_iff pl gc.players (.HighCard, [])).mp hr with ⟨-, hall⟩
      intro p hpm hcp
      cases hbp : p.best_hand with
      | none => rfl
      | some hp =>
        have := hall p hpm hcp hp hbp
        simp [HandRank.val] at this
    · rw [if_neg hr]
      simp only [reduceCtorEq, false_iff]
      intro hall
      apply hr
      rw [foldl_winStep_snd_nil_iff]
      refine ⟨rfl, fun p hpm hcp hp hbp => ?_⟩
      rw [hall p hpm hcp] at hbp
      exact Option.noConfusion hbp
  refine ⟨hnone pool, ?_, ?_⟩
  · intro w hw
    unfold GameController.get_winners at hw
    by_cases hr : (gc.players.foldl (winStep pool) (.HighCard, [])).2 = []
    · rw [if_pos hr] at hw
      exact Option.noConfusion hw
    · rw [if_neg hr] at hw
      injection hw with hw
      rw [← hw]
      exact hr
  · exact (hnone []).mpr (by simp)

/-- Instantiation of the C10 theorem: on the concrete two-player controller
the empty pool yields the no-winner outcome. -/
theorem get_winners_no_winner_witness : gcPair.get_winners [] = none :=
  (get_winners_no_winner gcPair ["p1", "p2"]).2.2

/-! ### Pot resolution -/

theorem zip_winners_map (f : Pot → Option (List String)) (l : List Pot) :
    (l.zip (l.map f)).map (fun pw => { pw.1 with winners := pw.2 }) =
      l.map fun pot => { pot with winners := f pot } := by
  induction l with
  | nil => rfl
  | cons pot l ih => simp [ih]

theorem resolve_pots_pots_eq (gc : GameController) :
    (gc.resolve_pots).table.pots =
      gc.table.pots.map fun pot =>
        { pot with winners := gc.get_winners pot.eligible_players } :=
  zip_winners_map (fun pot => gc.get_winners pot.eligible_players) gc.table.pots

/-- C8: `resolve_pots` writes only the `winners` field of each pot: every
pot's `total` and `eligible_players`, the number and order of pots, the bet
ledger, community cards, bet bounds and the player collection are all
unchanged. -/
theorem resolve_pots_frame (gc : GameController) :
    (gc.resolve_pots).table.pots.map Pot.total = gc.table.pots.map Pot.total ∧
    (gc.resolve_pots).table.pots.map Pot.eligible_players =
      gc.table.pots.map Pot.eligible_players ∧
    (gc.resolve_pots).table.pots.length = gc.table.pots.length ∧
    (gc.resolve_pots).table.player_bets = gc.table.player_bets ∧
    (gc.resolve_pots).table.community_cards = gc.table.community_cards ∧
    (gc.resolve_pots).table.min_bet = gc.table.min_bet ∧
    (gc.resolve_pots).table.max_bet = gc.table.max_bet ∧
    (gc.resolve_pots).players = gc.players := by
  refine ⟨?_, ?_, ?_, rfl, rfl, rfl, rfl, rfl⟩ <;>
    rw [resolve_pots_pots_eq] <;> simp [List.map_map, Function.comp]

/-- C1 (amended): for each pot, `resolve_pots` stores as `winners` exactly
the result of `get_winners` on that pot's `eligible_players`, and a player
identifier is listed iff it belongs to an eligible player of the controller
holding an evaluated `best_hand` whose *category* value is maximal among
the eligible players with an evaluated hand.  (The claim's full Hand order
with kicker-by-kicker tie-break is refuted by
`resolve_pots_ignores_kickers`: only the category is compared.) -/
theorem resolve_pots_winners_characterization (gc : GameController) (i : Nat)
    (pot : Pot) (hpot : gc.table.pots[i]? = some pot) :
    ∃ pot', (gc.resolve_pots).table.pots[i]? = some pot' ∧
      pot'.total = pot.total ∧
      pot'.eligible_players = pot.eligible_players ∧
      pot'.winners = gc.get_winners pot.eligible_players ∧
      ∀ x, (∃ w, pot'.winners = some w ∧ x ∈ w) ↔
        ∃ p ∈ gc.players, pot.eligible_players.contains p.player_id = true ∧
          p.player_id = x ∧ ∃ hp, p.best_hand = some hp ∧
            ∀ q ∈ gc.players, pot.eligible_players.contains q.player_id = true →
              ∀ hq, q.best_hand = some hq → hq.rank.val ≤ hp.rank.val := by
  refine ⟨{ pot with winners := gc.get_winners pot.eligible_players }, ?_, rfl, rfl, rfl,
    fun x => get_winners_mem_iff gc pot.eligible_players x⟩
  rw [resolve_pots_pots_eq, List.getElem?_map, hpot]
  rfl

/-- Instantiation of the amended C1 theorem at the concrete two-player
controller and its single pot. -/
theorem resolve_pots_winners_characterization_witness :
    ∃ pot', (gcPair.resolve_pots).table.pots[0]? = some pot' ∧
      pot'.total = 100 ∧
      pot'.eligible_players = ["p1", "p2"] ∧
      pot'.winners = gcPair.get_winners ["p1", "p2"] ∧
      ∀ x, (∃ w, pot'.winners = some w ∧ x ∈ w) ↔
        ∃ p ∈ gcPair.players, (["p1", "p2"] : List String).contains p.player_id = true ∧
          p.player_id = x ∧ ∃ hp, p.best_hand = some hp ∧
            ∀ q ∈ gcPair.players,
              (["p1", "p2"] : List String).contains q.player_id = true →
              ∀ hq, q.best_hand = some hq → hq.rank.val ≤ hp.rank.val :=
  resolve_pots_winners_characterization gcPair 0
    { total := 100, eligible_players := ["p1", "p2"], winners := none } (by decide)

/-- C1 counterexample: in `gcPair` both players' best hands are `OnePair`
but `playerTwos`' hand is strictly below `playerAces`' under the full Hand
order (kickers differ), yet `resolve_pots` lists both as winners of the
pot: winner determination compares categories only, never kickers. -/
theorem resolve_pots_ignores_kickers :
    (gcPair.resolve_pots).table.pots.map Pot.winners = [some ["p1", "p2"]] ∧
    handTwos.compare_two_hands handAces = .lt ∧
    playerAces.best_hand = some handAces ∧
    playerTwos.best_hand = some handTwos ∧
    playerAces.player_id = "p1" ∧
    playerTwos.player_id = "p2" ∧
    gcPair.table.pots.map Pot.eligible_players = [["p1", "p2"]] := by
  decide

/-! ### Pot totals under `add_bet` -/

theorem sumTot_nil : sumTot [] = 0 := rfl

theorem sumTot_cons (p : Pot) (l : List Pot) : sumTot (p :: l) = p.total + sumTot l := by
  simp [sumTot]

theorem sumTot_append_single (l : List Pot) (p : Pot) :
    sumTot (l ++ [p]) = sumTot l + p.total := by
  simp [sumTot]

theorem potsLoop_spec (bets : List (String × Nat)) (mb : Nat) (pid : String)
    (pots : List Pot) (remaining : Nat) :
    (potsLoop bets mb pid pots remaining).2 ≤ remaining ∧
    (sumTot pots + remaining < 2 ^ 32 →
      sumTot (potsLoop bets mb pid pots remaining).1 +
        (potsLoop bets mb pid pots remaining).2 = sumTot pots + remaining) := by
  induction pots generalizing remaining with
  | nil => exact ⟨Nat.le_refl _, fun _ => rfl⟩
  | cons pot rest ih =>
    simp only [potsLoop]
    by_cases h0 : remaining = 0
    · rw [if_pos h0]
      exact ⟨Nat.le_refl _, fun _ => rfl⟩
    · rw [if_neg h0]
      by_cases hel : pot.eligible_players.contains pid = true
      · rw [if_pos hel]
        have hcle : min remaining (usub mb (getBet bets pid)) ≤ remaining :=
          Nat.min_le_left _ _
        obtain ⟨ih1, ih2⟩ := ih (remaining - min remaining (usub mb (getBet bets pid)))
        refine ⟨le_trans ih1 (by omega), fun hbound => ?_⟩
        rw [sumTot_cons] at hbound
        have hnw : (pot.total + min remaining (usub mb (getBet bets pid))) % 2 ^ 32 =
            pot.total + min remaining (usub mb (getBet bets pid)) :=
          Nat.mod_eq_of_lt (by omega)
        have ihx := ih2 (by omega)
        simp only [sumTot_cons, hnw]
        omega
      · rw [if_neg hel]
        obtain ⟨ih1, ih2⟩ := ih remaining
        refine ⟨ih1, fun hbound => ?_⟩
        rw [sumTot_cons] at hbound
        have ihx := ih2 (by omega)
        simp only [sumTot_cons]
        omega

theorem add_bet_sumTot (t : Table) (pid : String) (amount : Nat)
    (hbound : sumTot t.pots + amount < 2 ^ 32) :
    sumTot (t.add_bet pid amount).pots = sumTot t.pots + amount := by
  obtain ⟨h1, h2⟩ := potsLoop_spec t.player_bets t.max_bet pid t.pots amount
  have heq := h2 hbound
  simp only [Table.add_bet]
  by_cases hr : (potsLoop t.player_bets t.max_bet pid t.pots amount).2 > 0
  · rw [if_pos hr, sumTot_append_single]
    dsimp only
    omega
  · rw [if_neg hr]
    omega

theorem applyBets_sumTot (bets : List (String × Nat)) (t : Table)
    (hbound : sumTot t.pots + (bets.map Prod.snd).sum < 2 ^ 32) :
    sumTot (applyBets t bets).pots = sumTot t.pots + (bets.map Prod.snd).sum := by
  induction bets generalizing t with
  | nil => simp [applyBets]
  | cons b bs ih =>
    have hsum : (List.map Prod.snd (b :: bs)).sum = b.2 + (bs.map Prod.snd).sum := by
      simp
    rw [hsum] at hbound
    have h1 : sumTot t.pots + b.2 < 2 ^ 32 := by omega
    have hstep := add_bet_sumTot t b.1 b.2 h1
    have htail := ih (t.add_bet b.1 b.2) (by rw [hstep]; omega)
    show sumTot (applyBets (t.add_bet b.1 b.2) bs).pots = _
    rw [htail, hstep, hsum]
    omega

/-- C2 (amended): after `reset_for_new_round`, for every sequence of
`add_bet` calls whose amounts sum below `2 ^ 32` (the `u32` range), the sum
of all pots' `total` fields equals the sum of the amounts.  (Without the
`u32` bound the claim fails: pot totals wrap, see
`add_bet_total_overflow_counterexample`.) -/
theorem add_bet_conserves_total (t : Table) (bets : List (String × Nat))
    (hbound : (bets.map Prod.snd).sum < 2 ^ 32) :
    sumTot (applyBets t.reset_for_new_round bets).pots = (bets.map Prod.snd).sum := by
  have hreset : sumTot t.reset_for_new_round.pots = 0 := rfl
  have := applyBets_sumTot bets t.reset_for_new_round (by rw [hreset]; omega)
  rw [hreset] at this
  omega

/-- Instantiation of the amended C2 theorem at the §8 betting sequence. -/
theorem add_bet_conserves_total_witness :
    sumTot (applyBets Table.new.reset_for_new_round
      [("A", 100), ("B", 300), ("C", 300)]).pots = 700 :=
  (add_bet_conserves_total Table.new [("A", 100), ("B", 300), ("C", 300)]
    (by decide)).trans (by decide)

/-- C2 counterexample: `total` and the bet ledger are `u32` fields, so once
a pot's running total exceeds `2 ^ 32 - 1` it wraps and the sum of pot
totals no longer equals the sum of the amounts passed to `add_bet` (here
the sum of pots is `2 ^ 32 - 1` while the bets sum to `2 ^ 33 - 1`). -/
theorem add_bet_total_overflow_counterexample :
    sumTot (applyBets Table.new.reset_for_new_round
        [("A", 1), ("B", 2 ^ 32 - 1), ("A", 2 ^ 32 - 1)]).pots ≠
      (([("A", 1), ("B", 2 ^ 32 - 1), ("A", 2 ^ 32 - 1)] :
        List (String × Nat)).map Prod.snd).sum := by
  decide

/-- C3 (the code at the claim's own example): after
`reset_for_new_round`, the bet sequence A:100, B:300, C:300 produces
*three* pots totalling 100/300/300 — not the claimed main pot
(300, {A,B,C}) plus side pot (400, {B,C}) — and since `add_bet` records
the bet in the ledger only *after* creating the pot and never updates
`max_bet`, each new pot's `eligible_players` excludes its triggering
bettor: A is not eligible for the first pot and C is eligible for no pot
at all. -/
theorem add_bet_side_pot_eligibility_bug :
    (applyBets Table.new.reset_for_new_round
        [("A", 100), ("B", 300), ("C", 300)]).pots.map Pot.total = [100, 300, 300] ∧
    (applyBets Table.new.reset_for_new_round
        [("A", 100), ("B", 300), ("C", 300)]).pots.map
          (fun pot => pot.eligible_players.contains "A") = [false, true, true] ∧
    (applyBets Table.new.reset_for_new_round
        [("A", 100), ("B", 300), ("C", 300)]).pots.map
          (fun pot => pot.eligible_players.contains "B") = [false, false, true] ∧
    (applyBets Table.new.reset_for_new_round
        [("A", 100), ("B", 300), ("C", 300)]).pots.map
          (fun pot => pot.eligible_players.contains "C") = [false, false, false] := by
  decide

/-- C7 (code evaluation at the failing input): `Player::reset_for_new_hand`
sets `hand_strength` to `None` but leaves `best_hand` untouched, so after
an evaluation followed by a reset the two fields are out of sync — the
mirror invariant claimed for every `Player` operation is broken by
`reset_for_new_hand`. -/
theorem reset_for_new_hand_desync :
    (((Player.new "p" "P" 0 1000).evaluate_hand
        [cS .Two, cD .Five, cC .Nine, cH .Jack, cS .Ace]).reset_for_new_hand).hand_strength
      = none ∧
    (((Player.new "p" "P" 0 1000).evaluate_hand
        [cS .Two, cD .Five, cC .Nine, cH .Jack, cS .Ace]).reset_for_new_hand).best_hand
      = some (find_best_hand [cS .Two, cD .Five, cC .Nine, cH .Jack, cS .Ace]) := by
  exact ⟨rfl, rfl⟩

end Poker
